import Mathlib

/-!
Shallow embedding of the csv-embeddings-projector pipeline scripts
(`scripts/cluster_embeddings.py`, `scripts/compress_metadata.py`,
`scripts/umap_reduce.py`) and proofs about the claims of the
specification.

Modelling conventions:
* Embedding vectors are lists of rationals (`List ℚ`); the claims under
  study do not depend on floating-point rounding, only on equality and
  shape of vectors.
* A pandas `DataFrame` is a list of named string columns
  (`List (String × List String)`): column order is significant,
  `df[col] = v` replaces the column in place when the name exists and
  appends it otherwise, exactly like pandas.
* A Python `dict` with integer keys is a list of key-value pairs in
  insertion order; `results[n] = v` replaces in place or appends, like
  `dict.__setitem__`.
* Python `sorted` is a stable ascending sort, embedded as
  `List.insertionSort` (stable, structural, kernel-computable).
* `sys.exit(code)` and uncaught library exceptions are embedded as
  explicit result records carrying the process exit code.
-/

namespace CsvProj

/-! ### Python dict / pandas column assignment -/

/-- Assignment `d[k] = v` for a Python dict (or `df[k] = v` for a pandas
DataFrame viewed as an ordered collection of named columns): if the key is
already present the value is replaced in place, otherwise the pair is
appended at the end. -/
def dictSet {κ ν : Type} [BEq κ] (d : List (κ × ν)) (k : κ) (v : ν) :
    List (κ × ν) :=
  if d.any (fun p => p.1 == k) then
    d.map (fun p => if p.1 == k then (k, v) else p)
  else d ++ [(k, v)]

/-- Lookup `d[k]`: the value of the first pair whose key is `k`. -/
def dictLookup {κ ν : Type} [BEq κ] (d : List (κ × ν)) (k : κ) : Option ν :=
  (d.find? (fun p => p.1 == k)).map (·.2)

/-- The keys of a dict / the header of a DataFrame, in order. -/
def dictKeys {κ ν : Type} (d : List (κ × ν)) : List κ :=
  d.map (·.1)

theorem find?_replace_ne {κ ν : Type} [BEq κ] [LawfulBEq κ]
    (d : List (κ × ν)) (k j : κ) (v : ν) (h : j ≠ k) :
    (d.map (fun p => if p.1 == k then (k, v) else p)).find?
      (fun p => p.1 == j) = d.find? (fun p => p.1 == j) := by
  induction d with
  | nil => rfl
  | cons p t ih =>
    by_cases hpk : p.1 = k
    · have h1 : (k == j) = false := by simp [Ne.symm h]
      have h2 : (p.1 == j) = false := by simp [hpk, Ne.symm h]
      simp [List.find?_cons, hpk, h1, h2, ih]
    · have hk : (p.1 == k) = false := by simp [hpk]
      by_cases hpj : p.1 = j
      · have hj : (p.1 == j) = true := by simp [hpj]
        simp [List.find?_cons, hk, hj]
      · have hj : (p.1 == j) = false := by simp [hpj]
        simp [List.find?_cons, hk, hj, ih]

theorem find?_replace_self {κ ν : Type} [BEq κ] [LawfulBEq κ]
    (d : List (κ × ν)) (k : κ) (v : ν) :
    (d.map (fun p => if p.1 == k then (k, v) else p)).find?
      (fun p => p.1 == k)
      = (d.find? (fun p => p.1 == k)).map (fun _ => (k, v)) := by
  induction d with
  | nil => rfl
  | cons p t ih =>
    by_cases hpk : p.1 = k
    · simp [List.find?_cons, hpk]
    · have hk : (p.1 == k) = false := by simp [hpk]
      simp [List.find?_cons, hk, ih]

/-- Looking up the key just assigned returns the assigned value. -/
theorem dictLookup_dictSet_self {κ ν : Type} [BEq κ] [LawfulBEq κ]
    (d : List (κ × ν)) (k : κ) (v : ν) :
    dictLookup (dictSet d k v) k = some v := by
  unfold dictSet dictLookup
  rcases hmem : d.any (fun p => p.1 == k) with _ | _
  · rw [if_neg (by simp)]
    have hnone : d.find? (fun p => p.1 == k) = none := by
      rw [List.find?_eq_none]
      intro p hp hpk
      have : d.any (fun p => p.1 == k) = true :=
        List.any_eq_true.mpr ⟨p, hp, hpk⟩
      rw [hmem] at this
      exact Bool.false_ne_true this
    simp [List.find?_append, hnone]
  · rw [if_pos rfl, find?_replace_self]
    rw [List.any_eq_true] at hmem
    obtain ⟨p, hp, hpk⟩ := hmem
    have hsome : (d.find? (fun p => p.1 == k)).isSome :=
      List.find?_isSome.mpr ⟨p, hp, hpk⟩
    obtain ⟨q, hq⟩ := Option.isSome_iff_exists.mp hsome
    simp [hq]

/-- Looking up any other key is unchanged by an assignment. -/
theorem dictLookup_dictSet_ne {κ ν : Type} [BEq κ] [LawfulBEq κ]
    (d : List (κ × ν)) (k j : κ) (v : ν) (h : j ≠ k) :
    dictLookup (dictSet d k v) j = dictLookup d j := by
  unfold dictSet dictLookup
  rcases hmem : d.any (fun p => p.1 == k) with _ | _
  · rw [if_neg (by simp)]
    have hkj : (k == j) = false := by simp [Ne.symm h]
    simp [List.find?_append, hkj, Option.or_none]
  · rw [if_pos rfl, find?_replace_ne d k j v h]

/-- Assignment does not change the key list when the key is present. -/
theorem dictKeys_dictSet_of_mem {κ ν : Type} [BEq κ] [LawfulBEq κ]
    (d : List (κ × ν)) (k : κ) (v : ν)
    (hmem : d.any (fun p => p.1 == k) = true) :
    dictKeys (dictSet d k v) = dictKeys d := by
  unfold dictSet dictKeys
  rw [if_pos hmem, List.map_map]
  refine List.map_congr_left ?_
  intro p _
  by_cases hpk : p.1 = k
  · simp [hpk]
  · have hk : (p.1 == k) = false := by simp [hpk]
    simp [hk]

/-- Assignment appends the key when it is new. -/
theorem dictKeys_dictSet_of_new {κ ν : Type} [BEq κ] [LawfulBEq κ]
    (d : List (κ × ν)) (k : κ) (v : ν)
    (hmem : d.any (fun p => p.1 == k) = false) :
    dictKeys (dictSet d k v) = dictKeys d ++ [k] := by
  unfold dictSet dictKeys
  rw [if_neg (by simp [hmem])]
  simp

theorem mem_dictKeys_dictSet {κ ν : Type} [BEq κ] [LawfulBEq κ]
    (d : List (κ × ν)) (k j : κ) (v : ν) :
    j ∈ dictKeys (dictSet d k v) ↔ j = k ∨ j ∈ dictKeys d := by
  rcases hmem : d.any (fun p => p.1 == k) with _ | _
  · rw [dictKeys_dictSet_of_new d k v hmem]
    simp only [List.mem_append, List.mem_singleton]
    tauto
  · rw [dictKeys_dictSet_of_mem d k v hmem]
    constructor
    · exact Or.inr
    · rintro (rfl | h)
      · rw [List.any_eq_true] at hmem
        obtain ⟨p, hp, hpk⟩ := hmem
        have hpj : p.1 = j := by simpa using hpk
        exact hpj ▸ List.mem_map_of_mem _ hp
      · exact h

/-- Assignment preserves distinctness of keys. -/
theorem nodup_dictKeys_dictSet {κ ν : Type} [BEq κ] [LawfulBEq κ]
    (d : List (κ × ν)) (k : κ) (v : ν) (h : (dictKeys d).Nodup) :
    (dictKeys (dictSet d k v)).Nodup := by
  rcases hmem : d.any (fun p => p.1 == k) with _ | _
  · rw [dictKeys_dictSet_of_new d k v hmem]
    rw [List.nodup_append]
    refine ⟨h, List.nodup_singleton k, ?_⟩
    intro a ha
    simp only [List.mem_singleton]
    intro hak
    subst hak
    obtain ⟨p, hp, hpa⟩ := List.mem_map.mp ha
    have : d.any (fun p => p.1 == a) = true :=
      List.any_eq_true.mpr ⟨p, hp, by simp [hpa]⟩
    rw [hmem] at this
    exact Bool.false_ne_true this
  · rw [dictKeys_dictSet_of_mem d k v hmem]
    exact h

/-! ### Decimal rendering: Python `str(n)` and `f-string` `02d` padding -/

/-- Base-`b` digits of `n`, least significant first, with explicit
structural fuel (`n` itself suffices since the argument strictly
decreases under division by `b ≥ 2`). -/
def digitsAux (b : ℕ) : ℕ → ℕ → List ℕ
  | 0, _ => []
  | _ + 1, 0 => []
  | fuel + 1, n + 1 => (n + 1) % b :: digitsAux b fuel ((n + 1) / b)

/-- Decimal digits of `n`, least significant first (empty for `0`). -/
def natDigits (n : ℕ) : List ℕ := digitsAux 10 n n

/-- Recombine least-significant-first decimal digits into a number. -/
def ofLSB : List ℕ → ℕ
  | [] => 0
  | d :: t => d + 10 * ofLSB t

theorem digitsAux_zero (b fuel : ℕ) : digitsAux b fuel 0 = [] := by
  cases fuel <;> rfl

theorem ofLSB_digitsAux :
    ∀ fuel n, n ≤ fuel → ofLSB (digitsAux 10 fuel n) = n := by
  intro fuel
  induction fuel with
  | zero =>
    intro n hn
    interval_cases n
    rfl
  | succ fuel ih =>
    intro n hn
    cases n with
    | zero => rw [digitsAux_zero]; rfl
    | succ m =>
      have hdiv : (m + 1) / 10 ≤ fuel := by
        have := Nat.div_lt_self (Nat.succ_pos m) (by norm_num : 1 < 10)
        omega
      show ofLSB ((m + 1) % 10 :: digitsAux 10 fuel ((m + 1) / 10)) = m + 1
      unfold ofLSB
      rw [ih _ hdiv]
      omega

theorem ofLSB_natDigits (n : ℕ) : ofLSB (natDigits n) = n :=
  ofLSB_digitsAux n n le_rfl

theorem natDigits_injective : Function.Injective natDigits := by
  intro a b h
  have := congrArg ofLSB h
  rwa [ofLSB_natDigits, ofLSB_natDigits] at this

theorem digitsAux_lt :
    ∀ fuel n d, d ∈ digitsAux 10 fuel n → d < 10 := by
  intro fuel
  induction fuel with
  | zero => intro n d hd; cases n <;> simp [digitsAux] at hd
  | succ fuel ih =>
    intro n d hd
    cases n with
    | zero => rw [digitsAux_zero] at hd; simp at hd
    | succ m =>
      rcases List.mem_cons.mp hd with h | h
      · subst h; exact Nat.mod_lt _ (by norm_num)
      · exact ih _ d h

theorem natDigits_lt (n d : ℕ) (hd : d ∈ natDigits n) : d < 10 :=
  digitsAux_lt n n d hd

/-- The most significant decimal digit of a positive number is nonzero. -/
theorem digitsAux_getLast :
    ∀ fuel n, 0 < n → n ≤ fuel →
      ∃ d, (digitsAux 10 fuel n).getLast? = some d ∧ d ≠ 0 ∧ d < 10 := by
  intro fuel
  induction fuel with
  | zero => intro n h1 h2; omega
  | succ fuel ih =>
    intro n h1 h2
    cases n with
    | zero => omega
    | succ m =>
      show ∃ d, ((m + 1) % 10 :: digitsAux 10 fuel ((m + 1) / 10)).getLast?
        = some d ∧ d ≠ 0 ∧ d < 10
      by_cases hq : (m + 1) / 10 = 0
      · have hm : m + 1 < 10 := by omega
        rw [hq, digitsAux_zero]
        refine ⟨(m + 1) % 10, rfl, ?_, Nat.mod_lt _ (by norm_num)⟩
        omega
      · have hdiv : (m + 1) / 10 ≤ fuel := by
          have := Nat.div_lt_self (Nat.succ_pos m) (by norm_num : 1 < 10)
          omega
        obtain ⟨d, hd, hd0, hd10⟩ := ih _ (Nat.pos_of_ne_zero hq) hdiv
        refine ⟨d, ?_, hd0, hd10⟩
        rw [List.getLast?_cons, hd]
        rfl

/-- Characters of Python `str(n)` for `n : ℕ`, most significant digit
first; `str(0) = "0"`. -/
def strChars (n : ℕ) : List Char :=
  if n = 0 then ['0'] else ((natDigits n).reverse).map Nat.digitChar

/-- Python `str(n)` for a nonnegative integer (also `numpy.astype(str)` on
one entry). -/
def natStr (n : ℕ) : String := String.mk (strChars n)

/-- Characters of `f"\x7bn:02d\x7d"`: the decimal digits zero-padded to a
minimum width of two. -/
def pad2Chars (n : ℕ) : List Char :=
  if n < 10 then '0' :: strChars n else strChars n

/-- The per-level cluster column name `f"cluster_\x7bn:02d\x7d"` from
`cluster_embeddings.main`. -/
def colName (n : ℕ) : String := String.mk ("cluster_".toList ++ pad2Chars n)

theorem digitChar_inj (d e : ℕ) (hd : d < 10) (he : e < 10)
    (h : Nat.digitChar d = Nat.digitChar e) : d = e := by
  interval_cases d <;> interval_cases e <;> revert h <;> decide

theorem digitChar_ne_zero (d : ℕ) (hd : d < 10) (h0 : d ≠ 0) :
    Nat.digitChar d ≠ '0' := by
  interval_cases d <;> revert h0 <;> decide

theorem map_digitChar_inj :
    ∀ l₁ l₂ : List ℕ, (∀ x ∈ l₁, x < 10) → (∀ x ∈ l₂, x < 10) →
      l₁.map Nat.digitChar = l₂.map Nat.digitChar → l₁ = l₂ := by
  intro l₁
  induction l₁ with
  | nil =>
    intro l₂ _ _ h
    cases l₂ with
    | nil => rfl
    | cons b t => simp at h
  | cons a t ih =>
    intro l₂ h₁ h₂ h
    cases l₂ with
    | nil => simp at h
    | cons b u =>
      simp only [List.map_cons, List.cons.injEq] at h
      have hab : a = b :=
        digitChar_inj a b (h₁ a (List.mem_cons_self _ _))
          (h₂ b (List.mem_cons_self _ _)) h.1
      have htu : t = u :=
        ih u (fun x hx => h₁ x (List.mem_cons_of_mem a hx))
          (fun x hx => h₂ x (List.mem_cons_of_mem b hx)) h.2
      rw [hab, htu]

theorem strChars_inj (a b : ℕ) (h : strChars a = strChars b) : a = b := by
  unfold strChars at h
  by_cases ha : a = 0 <;> by_cases hb : b = 0
  · omega
  · rw [if_pos ha, if_neg hb] at h
    have : ([0] : List ℕ).map Nat.digitChar = ((natDigits b).reverse).map
        Nat.digitChar := by simpa [Nat.digitChar] using h
    have hrev : ([0] : List ℕ) = (natDigits b).reverse :=
      map_digitChar_inj _ _ (by simp)
        (fun x hx => natDigits_lt b x (List.mem_reverse.mp hx)) this
    have hdig : natDigits b = [0] := by
      have := congrArg List.reverse hrev
      simpa using this.symm
    have := ofLSB_natDigits b
    rw [hdig] at this
    simp [ofLSB] at this
    omega
  · rw [if_neg ha, if_pos hb] at h
    have : ((natDigits a).reverse).map Nat.digitChar
        = ([0] : List ℕ).map Nat.digitChar := by simpa [Nat.digitChar] using h
    have hrev : (natDigits a).reverse = ([0] : List ℕ) :=
      map_digitChar_inj _ _
        (fun x hx => natDigits_lt a x (List.mem_reverse.mp hx)) (by simp) this
    have hdig : natDigits a = [0] := by
      have := congrArg List.reverse hrev
      simpa using this
    have := ofLSB_natDigits a
    rw [hdig] at this
    simp [ofLSB] at this
    omega
  · rw [if_neg ha, if_neg hb] at h
    have hrev : (natDigits a).reverse = (natDigits b).reverse :=
      map_digitChar_inj _ _
        (fun x hx => natDigits_lt a x (List.mem_reverse.mp hx))
        (fun x hx => natDigits_lt b x (List.mem_reverse.mp hx)) h
    exact natDigits_injective (List.reverse_injective hrev)

/-- A number that is at least ten renders with a nonzero leading
character. -/
theorem strChars_head_ne_zero (n : ℕ) (hn : 10 ≤ n) :
    ∃ c rest, strChars n = c :: rest ∧ c ≠ '0' := by
  have hn0 : n ≠ 0 := by omega
  obtain ⟨d, hd, hd0, hd10⟩ := digitsAux_getLast n n (by omega) le_rfl
  have hhead : ((natDigits n).reverse).head? = some d := by
    rw [List.head?_reverse]
    exact hd
  obtain ⟨rest, hrest⟩ : ∃ rest, (natDigits n).reverse = d :: rest := by
    cases hrev : (natDigits n).reverse with
    | nil => rw [hrev] at hhead; simp at hhead
    | cons x t =>
      rw [hrev] at hhead
      simp only [List.head?_cons, Option.some.injEq] at hhead
      exact ⟨t, by rw [hhead]⟩
  refine ⟨Nat.digitChar d, rest.map Nat.digitChar, ?_, digitChar_ne_zero d hd10 hd0⟩
  unfold strChars
  rw [if_neg hn0, hrest, List.map_cons]

theorem pad2Chars_inj (a b : ℕ) (h : pad2Chars a = pad2Chars b) : a = b := by
  unfold pad2Chars at h
  by_cases ha : a < 10 <;> by_cases hb : b < 10
  · rw [if_pos ha, if_pos hb] at h
    exact strChars_inj a b (List.tail_eq_of_cons_eq h)
  · rw [if_pos ha, if_neg hb] at h
    obtain ⟨c, rest, hcb, hc0⟩ := strChars_head_ne_zero b (by omega)
    rw [hcb] at h
    exact absurd (List.head_eq_of_cons_eq h).symm hc0
  · rw [if_neg ha, if_pos hb] at h
    obtain ⟨c, rest, hca, hc0⟩ := strChars_head_ne_zero a (by omega)
    rw [hca] at h
    exact absurd (List.head_eq_of_cons_eq h) hc0
  · rw [if_neg ha, if_neg hb] at h
    exact strChars_inj a b h

theorem colName_inj (a b : ℕ) (h : colName a = colName b) : a = b := by
  unfold colName at h
  have hdata := congrArg String.data h
  simp only at hdata
  exact pad2Chars_inj a b (List.append_cancel_left hdata)

/-! ### Distinct values in order of first appearance -/

/-- The distinct elements of a list in order of first appearance (the
iteration order of a pandas hash table over the series values). -/
def firstOccs {α : Type} [DecidableEq α] : List α → List α
  | [] => []
  | a :: t => a :: (firstOccs t).filter (fun b => decide (b ≠ a))

theorem mem_firstOccs {α : Type} [DecidableEq α] (l : List α) (a : α) :
    a ∈ firstOccs l ↔ a ∈ l := by
  induction l with
  | nil => simp [firstOccs]
  | cons x t ih =>
    simp only [firstOccs, List.mem_cons, List.mem_filter, decide_eq_true_eq]
    constructor
    · rintro (rfl | ⟨h, _⟩)
      · exact Or.inl rfl
      · exact Or.inr (ih.mp h)
    · rintro (rfl | h)
      · exact Or.inl rfl
      · by_cases hax : a = x
        · exact Or.inl hax
        · exact Or.inr ⟨ih.mpr h, hax⟩

/-! ### Embedding of `scripts/compress_metadata.py` -/

/-- The tally `series.value_counts()`: one `(value, count)` pair per
distinct value, sorted by count in descending order. `insertionSort` is
stable, so values of equal count stay in first-appearance order. -/
def value_counts (series : List String) : List (String × ℕ) :=
  ((firstOccs series).map (fun v => (v, series.count v))).insertionSort
    (fun a b => a.2 ≥ b.2)

/-- Embedding of `compress_column` (`compress_metadata.py`, lines 26-29):
keep the `top_n` most frequent values by name and collapse every other
value to the literal string `Other`.

Python: `top_values = series.value_counts().head(top_n).index` followed by
`series.where(series.isin(top_values), other='Other')`. -/
def compress_column (series : List String) (top_n : ℕ) : List String :=
  let top_values := ((value_counts series).take top_n).map (·.1)
  series.map (fun x => if x ∈ top_values then x else "Other")

/-! ### Embedding of `scripts/cluster_embeddings.py` -/

/-- The external scikit-learn `BisectingKMeans` fitting routine, kept
abstract: given the vector matrix, the target cluster count `n_clusters`
and the effective random seed, it returns one 0-based cluster id per row.
The repository code only consumes it through `fit_predict`. -/
structure BisectingAlg where
  run : List (List ℚ) → ℕ → ℕ → List ℕ

/-- The documented contract of `BisectingKMeans.fit_predict` on a valid
request (`1 ≤ n_clusters ≤ n_samples`): one label per row, labels in
`[0, n_clusters)`, and no empty cluster whenever the data has at least
`n_clusters` distinct points. -/
structure AlgContract (alg : BisectingAlg) : Prop where
  length_run : ∀ v k seed, (alg.run v k seed).length = v.length
  run_lt : ∀ v k seed, 0 < k → k ≤ v.length →
    ∀ l ∈ alg.run v k seed, l < k
  run_surj : ∀ v k seed, 0 < k → k ≤ (firstOccs v).length →
    ∀ j < k, j ∈ alg.run v k seed

/-- scikit-learn parameter validation around the fit: `n_clusters` must be
at least 1, and `n_samples` must be at least `n_clusters`, otherwise the
fit raises (an uncaught `ValueError` in the script). -/
def fitPredict (alg : BisectingAlg) (vectors : List (List ℚ))
    (k seed : ℕ) : Except String (List ℕ) :=
  if k = 0 then .error "n_clusters must be at least 1"
  else if vectors.length < k then
    .error "n_samples should be at least n_clusters"
  else .ok (alg.run vectors k seed)

/-- Effective seed of one scikit-learn estimator: a fixed `random_state`
ignores the ambient process entropy, `random_state=None` would draw from
it. -/
def seedOf (randomState : Option ℕ) (entropy : ℕ) : ℕ :=
  randomState.getD entropy

/-- The sequence of levels the `cluster` loop iterates over:
`sorted(levels)` (`cluster_embeddings.py`, line 44). Python `sorted` is a
stable ascending sort; it does not remove duplicates. One clustering run
is performed per entry of this list. -/
def processedLevels (levels : List ℕ) : List ℕ :=
  levels.insertionSort (· ≤ ·)

/-- The 1-based label assignment produced for one level:
`model.fit_predict(vectors) + 1` (`cluster_embeddings.py`, line 46). -/
def labelsFor (alg : BisectingAlg) (vectors : List (List ℚ))
    (seed n : ℕ) : List ℕ :=
  (alg.run vectors n seed).map (· + 1)

/-- One iteration of the `cluster` loop: fit for `n` clusters, shift the
0-based ids by +1, store under key `n` in the results dict. -/
def clusterStep (alg : BisectingAlg) (seed : ℕ) (vectors : List (List ℚ))
    (d : List (ℕ × List ℕ)) (n : ℕ) : Except String (List (ℕ × List ℕ)) := do
  let labels0 ← fitPredict alg vectors n seed
  pure (dictSet d n (labels0.map (· + 1)))

/-- Embedding of `cluster` (`cluster_embeddings.py`, lines 35-51): for
each level in `sorted(levels)` fit a `BisectingKMeans(n_clusters=n,
random_state=42)` and record `fit_predict(vectors) + 1` in a dict keyed by
the level. The per-level size statistics printed by the loop are an
observable side effect with no influence on the returned data and are not
modelled. An exception aborts the whole call. -/
def cluster (alg : BisectingAlg) (entropy : ℕ) (vectors : List (List ℚ))
    (levels : List ℕ) : Except String (List (ℕ × List ℕ)) :=
  (processedLevels levels).foldlM
    (clusterStep alg (seedOf (some 42) entropy) vectors) []

/-- A metadata table: ordered named string columns. -/
abbrev Table := List (String × List String)

/-- Row count of a loaded metadata table (`len(df)`); the loader always
produces rectangular columns, so the first column's length is the row
count. -/
def rowCount (df : Table) : ℕ :=
  match df with
  | [] => 0
  | c :: _ => c.2.length

/-- Embedding of the merge loop of `main` (`cluster_embeddings.py`, lines
136-140): for each `(n, lab)` in `sorted(labels.items())`, assign
`df[f"cluster_\x7bn:02d\x7d"] = lab.astype(str)`. -/
def augment (df : Table) (labels : List (ℕ × List ℕ)) : Table :=
  (labels.insertionSort (fun a b => a.1 ≤ b.1)).foldl
    (fun d p => dictSet d (colName p.1) (p.2.map natStr)) df

/-- Observable outcome of one run of `cluster_embeddings.main` after both
input files have been loaded: the process exit code, whether the cluster
engine was invoked, and the augmented table written on success. -/
structure RunResult where
  exitCode : ℕ
  engineInvoked : Bool
  output : Option Table
deriving DecidableEq

/-- Embedding of `cluster_embeddings.main` from the row-count check
onwards (lines 128-143): a vector/metadata row-count mismatch is reported
and the process exits with code 1 before `cluster` is called; an uncaught
clustering exception terminates the process with a nonzero code; otherwise
the augmented table is written and the process exits with code 0. -/
def mainAfterLoad (alg : BisectingAlg) (entropy : ℕ)
    (vectors : List (List ℚ)) (df : Table) (levels : List ℕ) : RunResult :=
  if rowCount df ≠ vectors.length then ⟨1, false, none⟩
  else
    match cluster alg entropy vectors levels with
    | .error _ => ⟨1, true, none⟩
    | .ok labels => ⟨0, true, some (augment df labels)⟩

/-- A simple concrete stand-in clustering algorithm used to instantiate
the abstract `BisectingAlg` in witnesses: row `i` goes to cluster
`i % k`. -/
def roundRobin : BisectingAlg :=
  ⟨fun v k _ => (List.range v.length).map (fun i => i % k)⟩

/-! ### Embedding of `scripts/umap_reduce.py` -/

/-- `Path(p).parent` rendered back to a string (the part before the last
slash, or `.` when there is none). -/
def parentDir (p : String) : String :=
  if '/' ∈ p.toList then
    String.mk (((p.toList.reverse.dropWhile
      (fun c => decide (c ≠ '/'))).drop 1).reverse)
  else "."

/-- Command-line arguments of `umap_reduce.py` after parsing. -/
structure UmapArgs where
  vectors : String
  dims : ℕ
  n_neighbors : ℕ
  min_dist : ℚ
  output : Option String
deriving DecidableEq

/-- The resolved output path (`umap_reduce.py`, lines 100-101):
`args.output` if given, else
`<vectors_dir>/projector_umap\x7bdims\x7d_vectors.tsv`. -/
def resolvedOutput (a : UmapArgs) : String :=
  a.output.getD
    (parentDir a.vectors ++ "/projector_umap" ++ natStr a.dims
      ++ "_vectors.tsv")

/-- Observable outcome of one run of `umap_reduce.main`: exit code,
whether the input vectors were loaded, whether the reduction ran, and the
path written (if any). -/
structure UmapResult where
  exitCode : ℕ
  loadedVectors : Bool
  ranReduction : Bool
  wrote : Option String
deriving DecidableEq

/-- Embedding of `umap_reduce.main` (lines 94-121), parameterized by the
file-system existence predicate `fs`, the vector loader and the UMAP
reduction routine (both external): missing input exits 1; an
already-existing resolved output path exits 0 before anything is loaded;
a target dimensionality not smaller than the input width exits 1;
otherwise the reduction runs and the output file is written. -/
def umapMain (fs : String → Bool) (loadFn : String → List (List ℚ))
    (reduceFn : List (List ℚ) → ℕ → ℕ → ℚ → List (List ℚ))
    (a : UmapArgs) : UmapResult :=
  if fs a.vectors = false then ⟨1, false, false, none⟩
  else if fs (resolvedOutput a) then ⟨0, false, false, none⟩
  else
    let v := loadFn a.vectors
    if (v.head?.getD []).length ≤ a.dims then ⟨1, true, false, none⟩
    else
      let _ := reduceFn v a.dims a.n_neighbors a.min_dist
      ⟨0, true, true, some (resolvedOutput a)⟩

/-! ### Behaviour of the cluster loop -/

theorem clusterStep_ok (alg : BisectingAlg) (seed : ℕ)
    (v : List (List ℚ)) (d : List (ℕ × List ℕ)) (n : ℕ)
    (h0 : 0 < n) (hN : n ≤ v.length) :
    clusterStep alg seed v d n = .ok (dictSet d n (labelsFor alg v seed n)) := by
  unfold clusterStep fitPredict labelsFor
  rw [if_neg (by omega), if_neg (by omega)]
  rfl

theorem foldlM_clusterStep_ok (alg : BisectingAlg) (seed : ℕ)
    (v : List (List ℚ)) :
    ∀ (L : List ℕ) (d : List (ℕ × List ℕ)),
      (∀ n ∈ L, 0 < n ∧ n ≤ v.length) →
      L.foldlM (clusterStep alg seed v) d
        = .ok (L.foldl (fun d n => dictSet d n (labelsFor alg v seed n)) d) := by
  intro L
  induction L with
  | nil => intro d _; rfl
  | cons a t ih =>
    intro d h
    have ha := h a (List.mem_cons_self _ _)
    rw [List.foldlM_cons, clusterStep_ok alg seed v d a ha.1 ha.2]
    show t.foldlM (clusterStep alg seed v) _ = _
    rw [ih _ (fun n hn => h n (List.mem_cons_of_mem a hn))]
    rfl

theorem foldlM_clusterStep_error (alg : BisectingAlg) (seed : ℕ)
    (v : List (List ℚ)) :
    ∀ (L : List ℕ) (d : List (ℕ × List ℕ)) (n : ℕ),
      n ∈ L → v.length < n →
      ∃ msg, L.foldlM (clusterStep alg seed v) d = .error msg := by
  intro L
  induction L with
  | nil => intro d n hn; exact absurd hn (List.not_mem_nil n)
  | cons a t ih =>
    intro d n hn hgt
    rcases hstep : clusterStep alg seed v d a with msg | d'
    · exact ⟨msg, by rw [List.foldlM_cons, hstep]; rfl⟩
    · have haN : ¬v.length < a := by
        intro hlt
        unfold clusterStep fitPredict at hstep
        by_cases ha0 : a = 0
        · rw [if_pos ha0] at hstep
          simp [Except.bind] at hstep
        · rw [if_neg ha0, if_pos hlt] at hstep
          simp [Except.bind] at hstep
      have hat : n ∈ t := by
        rcases List.mem_cons.mp hn with rfl | h
        · omega
        · exact h
      obtain ⟨msg, hmsg⟩ := ih d' n hat hgt
      refine ⟨msg, ?_⟩
      rw [List.foldlM_cons, hstep]
      exact hmsg

theorem dictLookup_foldl_dictSet {ν : Type} (f : ℕ → ν) :
    ∀ (L : List ℕ) (d : List (ℕ × ν)) (k : ℕ),
      dictLookup (L.foldl (fun d n => dictSet d n (f n)) d) k
        = if k ∈ L then some (f k) else dictLookup d k := by
  intro L
  induction L with
  | nil => intro d k; simp
  | cons a t ih =>
    intro d k
    rw [List.foldl_cons, ih]
    by_cases hk : k ∈ t
    · rw [if_pos hk, if_pos (List.mem_cons_of_mem a hk)]
    · by_cases hka : k = a
      · subst hka
        rw [if_neg hk, if_pos (List.mem_cons_self _ _)]
        exact dictLookup_dictSet_self d k (f k)
      · rw [if_neg hk, if_neg (by simp [hka, hk])]
        exact dictLookup_dictSet_ne d a k (f a) hka

theorem mem_dictKeys_foldl {ν : Type} (f : ℕ → ν) :
    ∀ (L : List ℕ) (d : List (ℕ × ν)) (k : ℕ),
      k ∈ dictKeys (L.foldl (fun d n => dictSet d n (f n)) d)
        ↔ k ∈ L ∨ k ∈ dictKeys d := by
  intro L
  induction L with
  | nil => intro d k; simp
  | cons a t ih =>
    intro d k
    rw [List.foldl_cons, ih, mem_dictKeys_dictSet]
    simp only [List.mem_cons]
    tauto

theorem nodup_dictKeys_foldl {ν : Type} (f : ℕ → ν) :
    ∀ (L : List ℕ) (d : List (ℕ × ν)),
      (dictKeys d).Nodup →
      (dictKeys (L.foldl (fun d n => dictSet d n (f n)) d)).Nodup := by
  intro L
  induction L with
  | nil => intro d h; exact h
  | cons a t ih =>
    intro d h
    rw [List.foldl_cons]
    exact ih _ (nodup_dictKeys_dictSet d a (f a) h)

/-- On an all-valid level list, `cluster` succeeds and returns the dict
built by the loop, with the fixed seed 42. -/
theorem cluster_ok (alg : BisectingAlg) (e : ℕ) (v : List (List ℚ))
    (levels : List ℕ) (h : ∀ n ∈ levels, 0 < n ∧ n ≤ v.length) :
    cluster alg e v levels
      = .ok ((processedLevels levels).foldl
          (fun d n => dictSet d n (labelsFor alg v 42 n)) []) := by
  unfold cluster
  exact foldlM_clusterStep_ok alg 42 v (processedLevels levels) []
    (fun n hn => h n
      ((List.perm_insertionSort (· ≤ ·) levels).mem_iff.mp hn))

/-- Membership in the processed level list agrees with the request. -/
theorem mem_processedLevels (levels : List ℕ) (n : ℕ) :
    n ∈ processedLevels levels ↔ n ∈ levels :=
  (List.perm_insertionSort (· ≤ ·) levels).mem_iff

/-! ### Behaviour of the metadata merge loop -/

theorem dictSet_append {κ ν : Type} [BEq κ] [LawfulBEq κ]
    (df s : List (κ × ν)) (k : κ) (v : ν)
    (h : ∀ p ∈ df, (p.1 == k) = false) :
    dictSet (df ++ s) k v = df ++ dictSet s k v := by
  unfold dictSet
  have hdf : df.any (fun p => p.1 == k) = false := by
    rw [List.any_eq_false]
    intro p hp
    simp [h p hp]
  rw [List.any_append, hdf, Bool.false_or]
  rcases hs : s.any (fun p => p.1 == k) with _ | _
  · rw [if_neg (by simp), if_neg (by simp), List.append_assoc]
  · rw [if_pos rfl, if_pos rfl, List.map_append]
    congr 1
    refine (List.map_congr_left ?_).trans (List.map_id df)
    intro p hp
    rw [h p hp]
    rfl

/-- The fold step of `augment`. -/
def colSet (d : Table) (p : ℕ × List ℕ) : Table :=
  dictSet d (colName p.1) (p.2.map natStr)

theorem foldl_colSet_append (ps : List (ℕ × List ℕ)) :
    ∀ (df s : Table),
      (∀ p ∈ ps, ∀ q ∈ df, (q.1 == colName p.1) = false) →
      ps.foldl colSet (df ++ s) = df ++ ps.foldl colSet s := by
  induction ps with
  | nil => intro df s _; rfl
  | cons a t ih =>
    intro df s h
    rw [List.foldl_cons, List.foldl_cons]
    show t.foldl colSet (dictSet (df ++ s) (colName a.1) (a.2.map natStr))
      = df ++ t.foldl colSet (dictSet s (colName a.1) (a.2.map natStr))
    rw [dictSet_append df s (colName a.1) (a.2.map natStr)
      (fun q hq => h a (List.mem_cons_self _ _) q hq)]
    exact ih df _ (fun p hp q hq => h p (List.mem_cons_of_mem a hp) q hq)

/-- With pairwise-distinct fresh column names, the merge fold literally
appends one rendered column per entry, in order. -/
theorem foldl_colSet_fresh (ps : List (ℕ × List ℕ)) :
    ∀ (df : Table),
      (ps.map (fun p => colName p.1)).Nodup →
      (∀ p ∈ ps, ∀ q ∈ df, (q.1 == colName p.1) = false) →
      ps.foldl colSet df
        = df ++ ps.map (fun p => (colName p.1, p.2.map natStr)) := by
  induction ps with
  | nil => intro df _ _; simp
  | cons a t ih =>
    intro df hnodup h
    rw [List.foldl_cons]
    have hfresh : df.any (fun q => q.1 == colName a.1) = false := by
      rw [List.any_eq_false]
      intro q hq
      simp [h a (List.mem_cons_self _ _) q hq]
    have hstep : colSet df a = df ++ [(colName a.1, a.2.map natStr)] := by
      unfold colSet dictSet
      rw [if_neg (by simp [hfresh])]
    rw [hstep]
    rw [List.map_cons] at hnodup
    have hherd := List.nodup_cons.mp hnodup
    rw [ih (df ++ [(colName a.1, a.2.map natStr)]) hherd.2 ?_]
    · rw [List.append_assoc]
      rfl
    · intro p hp q hq
      rcases List.mem_append.mp hq with hq | hq
      · exact h p (List.mem_cons_of_mem a hp) q hq
      · rw [List.mem_singleton.mp hq]
        have : colName a.1 ≠ colName p.1 := by
          intro heq
          exact hherd.1 (heq ▸ List.mem_map_of_mem _ hp)
        simp [this]

theorem dictKeys_foldl_colSet_subset (ps : List (ℕ × List ℕ)) :
    ∀ (s : Table) (q : String),
      q ∈ dictKeys (ps.foldl colSet s) →
      q ∈ dictKeys s ∨ ∃ p ∈ ps, q = colName p.1 := by
  induction ps with
  | nil => intro s q hq; exact Or.inl hq
  | cons a t ih =>
    intro s q hq
    rw [List.foldl_cons] at hq
    rcases ih _ q hq with h | ⟨p, hp, hpq⟩
    · rcases (mem_dictKeys_dictSet s (colName a.1) q (a.2.map natStr)).mp h
        with h | h
      · exact Or.inr ⟨a, List.mem_cons_self _ _, h⟩
      · exact Or.inl h
    · exact Or.inr ⟨p, List.mem_cons_of_mem a hp, hpq⟩

instance : IsTotal (ℕ × List ℕ) (fun a b => a.1 ≤ b.1) :=
  ⟨fun a b => Nat.le_total a.1 b.1⟩

instance : IsTrans (ℕ × List ℕ) (fun a b => a.1 ≤ b.1) :=
  ⟨fun _ _ _ => Nat.le_trans⟩

/-- Freshness of all new column names makes `augment` a pure append: the
original columns survive byte-identical as a prefix, and everything
appended is a `cluster_NN` column of one of the merged levels. -/
theorem augment_append (df : Table) (labels : List (ℕ × List ℕ))
    (h : ∀ p ∈ labels, colName p.1 ∉ dictKeys df) :
    ∃ s, augment df labels = df ++ s
      ∧ ∀ q ∈ s, ∃ p ∈ labels, q.1 = colName p.1 := by
  have hperm := List.perm_insertionSort (fun a b : ℕ × List ℕ => a.1 ≤ b.1)
    labels
  have hfresh : ∀ p ∈ labels.insertionSort (fun a b => a.1 ≤ b.1),
      ∀ q ∈ df, (q.1 == colName p.1) = false := by
    intro p hp q hq
    have hnot := h p (hperm.mem_iff.mp hp)
    rcases hb : (q.1 == colName p.1) with _ | _
    · rfl
    · exact absurd ((eq_of_beq hb) ▸ List.mem_map_of_mem _ hq) hnot
  refine ⟨(labels.insertionSort (fun a b => a.1 ≤ b.1)).foldl colSet [], ?_, ?_⟩
  · show (labels.insertionSort (fun a b => a.1 ≤ b.1)).foldl colSet df = _
    calc (labels.insertionSort (fun a b => a.1 ≤ b.1)).foldl colSet df
        = (labels.insertionSort (fun a b => a.1 ≤ b.1)).foldl colSet (df ++ [])
          := by rw [List.append_nil]
      _ = df ++ (labels.insertionSort (fun a b => a.1 ≤ b.1)).foldl colSet []
          := foldl_colSet_append _ df [] hfresh
  · intro q hq
    have := dictKeys_foldl_colSet_subset _ [] q.1 (List.mem_map_of_mem _ hq)
    rcases this with h | ⟨p, hp, hpq⟩
    · simp [dictKeys] at h
    · exact ⟨p, hperm.mem_iff.mp hp, hpq⟩

/-- When the dict has distinct keys, membership determines lookup. -/
theorem dictLookup_of_mem {κ ν : Type} [BEq κ] [LawfulBEq κ]
    (d : List (κ × ν)) (p : κ × ν)
    (hnodup : (dictKeys d).Nodup) (hp : p ∈ d) :
    dictLookup d p.1 = some p.2 := by
  induction d with
  | nil => exact absurd hp (List.not_mem_nil p)
  | cons q t ih =>
    rcases List.mem_cons.mp hp with rfl | hp
    · unfold dictLookup
      rw [List.find?_cons_of_pos _ (by simp)]
      rfl
    · have hne : (q.1 == p.1) = false := by
        rcases hb : (q.1 == p.1) with _ | _
        · rfl
        · exfalso
          have : p.1 ∈ dictKeys t := List.mem_map_of_mem _ hp
          rw [← eq_of_beq hb] at this
          exact (List.nodup_cons.mp hnodup).1 this
      unfold dictLookup
      rw [List.find?_cons_of_neg _ (by simp [hne])]
      exact ih (List.nodup_cons.mp hnodup).2 hp

theorem dictLookup_append_right {κ ν : Type} [BEq κ] [LawfulBEq κ]
    (df s : List (κ × ν)) (k : κ)
    (h : ∀ q ∈ df, (q.1 == k) = false) :
    dictLookup (df ++ s) k = dictLookup s k := by
  unfold dictLookup
  rw [List.find?_append]
  have hnone : df.find? (fun p => p.1 == k) = none := by
    rw [List.find?_eq_none]
    intro p hp
    simp [h p hp]
  rw [hnone]
  rfl

/-- With distinct requested keys and fresh names, `augment` produces
exactly the original table followed by the rendered label columns in
ascending level order. -/
theorem augment_canonical (df : Table) (labels : List (ℕ × List ℕ))
    (hkeys : (dictKeys labels).Nodup)
    (h : ∀ p ∈ labels, colName p.1 ∉ dictKeys df) :
    augment df labels
      = df ++ (labels.insertionSort (fun a b => a.1 ≤ b.1)).map
          (fun p => (colName p.1, p.2.map natStr)) := by
  have hperm := List.perm_insertionSort
    (fun a b : ℕ × List ℕ => a.1 ≤ b.1) labels
  have hkeys' : (dictKeys (labels.insertionSort
      (fun a b => a.1 ≤ b.1))).Nodup := by
    have hm := List.Perm.map (fun p : ℕ × List ℕ => p.1) hperm
    unfold dictKeys at hkeys ⊢
    exact (List.Perm.nodup_iff hm).mpr hkeys
  have hnames : ((labels.insertionSort (fun a b => a.1 ≤ b.1)).map
      (fun p => colName p.1)).Nodup := by
    have : (labels.insertionSort (fun a b => a.1 ≤ b.1)).map
        (fun p => colName p.1)
        = ((labels.insertionSort (fun a b => a.1 ≤ b.1)).map (·.1)).map
            colName := by
      rw [List.map_map]
      rfl
    rw [this]
    exact List.Nodup.map (fun a b hab => colName_inj a b hab) hkeys'
  have hfresh : ∀ p ∈ labels.insertionSort (fun a b => a.1 ≤ b.1),
      ∀ q ∈ df, (q.1 == colName p.1) = false := by
    intro p hp q hq
    have hnot := h p (hperm.mem_iff.mp hp)
    rcases hb : (q.1 == colName p.1) with _ | _
    · rfl
    · exact absurd ((eq_of_beq hb) ▸ List.mem_map_of_mem _ hq) hnot
  exact foldl_colSet_fresh _ df hnames hfresh

theorem firstOccs_length_le {α : Type} [DecidableEq α] :
    ∀ l : List α, (firstOccs l).length ≤ l.length := by
  intro l
  induction l with
  | nil => simp [firstOccs]
  | cons a t ih =>
    simp only [firstOccs, List.length_cons]
    have := List.length_filter_le (fun b => decide (b ≠ a)) (firstOccs t)
    omega

/-- The stand-in algorithm satisfies the documented scikit-learn
contract. -/
theorem roundRobin_contract : AlgContract roundRobin := by
  constructor
  · intro v k seed
    simp [roundRobin]
  · intro v k seed hk _ l hl
    simp only [roundRobin, List.mem_map, List.mem_range] at hl
    obtain ⟨i, _, rfl⟩ := hl
    exact Nat.mod_lt _ hk
  · intro v k seed _ hdist j hj
    have hlen : k ≤ v.length :=
      le_trans hdist (firstOccs_length_le v)
    simp only [roundRobin, List.mem_map, List.mem_range]
    exact ⟨j, by omega, Nat.mod_eq_of_lt hj⟩

/-! ### Claims -/

/-- C1: for every vector matrix with N rows and every requested level n
with 1 < n ≤ N, the label assignment returned by the cluster engine for
level n contains exactly N entries, each an integer in [1, n] (obtained
by shifting the underlying algorithm's 0-based cluster ids by +1), and
every integer in [1, n] is used by at least one row when n is at most the
number of distinct input vectors. The underlying `BisectingKMeans` is
external to the repository and enters through its documented contract
`AlgContract`. -/
theorem C1_labels_range_and_onto
    (alg : BisectingAlg) (hc : AlgContract alg) (e : ℕ)
    (v : List (List ℚ)) (levels : List ℕ) (n : ℕ)
    (hn : n ∈ levels) (h1 : 1 < n) (hN : n ≤ v.length)
    (hall : ∀ m ∈ levels, 0 < m ∧ m ≤ v.length) :
    ∃ d labels, cluster alg e v levels = .ok d
      ∧ dictLookup d n = some labels
      ∧ labels = (alg.run v n 42).map (· + 1)
      ∧ labels.length = v.length
      ∧ (∀ l ∈ labels, 1 ≤ l ∧ l ≤ n)
      ∧ (n ≤ (firstOccs v).length → ∀ j, 1 ≤ j → j ≤ n → j ∈ labels) := by
  refine ⟨_, labelsFor alg v 42 n, cluster_ok alg e v levels hall,
    ?_, rfl, ?_, ?_, ?_⟩
  · rw [dictLookup_foldl_dictSet,
      if_pos ((mem_processedLevels levels n).mpr hn)]
  · unfold labelsFor
    rw [List.length_map]
    exact hc.length_run v n 42
  · intro l hl
    unfold labelsFor at hl
    obtain ⟨l0, hl0, rfl⟩ := List.mem_map.mp hl
    have := hc.run_lt v n 42 (by omega) hN l0 hl0
    omega
  · intro hdist j hj1 hjn
    have hmem := hc.run_surj v n 42 (by omega) hdist (j - 1) (by omega)
    unfold labelsFor
    exact List.mem_map.mpr ⟨j - 1, hmem, by omega⟩

theorem C1_witness :
    ∃ d labels, cluster roundRobin 0 [[(0 : ℚ)], [1]] [2] = .ok d
      ∧ dictLookup d 2 = some labels
      ∧ labels = (roundRobin.run [[(0 : ℚ)], [1]] 2 42).map (· + 1)
      ∧ labels.length = ([[(0 : ℚ)], [1]] : List (List ℚ)).length
      ∧ (∀ l ∈ labels, 1 ≤ l ∧ l ≤ 2)
      ∧ (2 ≤ (firstOccs [[(0 : ℚ)], [1]]).length →
          ∀ j, 1 ≤ j → j ≤ 2 → j ∈ labels) :=
  C1_labels_range_and_onto roundRobin roundRobin_contract 0
    [[(0 : ℚ)], [1]] [2] 2 (by decide) (by decide) (by decide) (by decide)

/-- C2: for every input where some requested level n exceeds the row
count N of the vector matrix, the scikit-learn fit raises, so `cluster`
fails with an error (the spec's `InvalidLevel`), the request is rejected
rather than clamped (no output is produced), and the process exits with a
nonzero code. -/
theorem C2_invalid_level_rejected
    (alg : BisectingAlg) (e : ℕ) (v : List (List ℚ)) (df : Table)
    (levels : List ℕ) (n : ℕ) (hn : n ∈ levels) (hgt : v.length < n) :
    (∃ msg, cluster alg e v levels = .error msg)
      ∧ (mainAfterLoad alg e v df levels).exitCode ≠ 0
      ∧ (mainAfterLoad alg e v df levels).output = none := by
  have herr : ∃ msg, cluster alg e v levels = .error msg := by
    unfold cluster
    exact foldlM_clusterStep_error alg _ v _ [] n
      ((mem_processedLevels levels n).mpr hn) hgt
  have hmain : mainAfterLoad alg e v df levels = ⟨1, false, none⟩
      ∨ mainAfterLoad alg e v df levels = ⟨1, true, none⟩ := by
    unfold mainAfterLoad
    by_cases hrow : rowCount df ≠ v.length
    · left
      rw [if_pos hrow]
    · right
      rw [if_neg hrow]
      obtain ⟨msg, hmsg⟩ := herr
      rw [hmsg]
  refine ⟨herr, ?_, ?_⟩ <;> rcases hmain with h | h <;> rw [h] <;> simp

theorem C2_witness :
    (∃ msg, cluster roundRobin 0 [[(0 : ℚ)]] [2] = .error msg)
      ∧ (mainAfterLoad roundRobin 0 [[(0 : ℚ)]] [("t", ["a"])] [2]).exitCode
          ≠ 0
      ∧ (mainAfterLoad roundRobin 0 [[(0 : ℚ)]] [("t", ["a"])] [2]).output
          = none :=
  C2_invalid_level_rejected roundRobin 0 [[(0 : ℚ)]] [("t", ["a"])] [2] 2
    (by decide) (by decide)

/-- C3: for every run where the loaded vector matrix and the loaded
metadata table have different row counts, the program exits with code 1
(after reporting the mismatch) and the cluster engine is never invoked
(`engineInvoked = false`), so the check precedes clustering. -/
theorem C3_row_count_mismatch_precheck
    (alg : BisectingAlg) (e : ℕ) (v : List (List ℚ)) (df : Table)
    (levels : List ℕ) (h : rowCount df ≠ v.length) :
    mainAfterLoad alg e v df levels
      = { exitCode := 1, engineInvoked := false, output := none } := by
  unfold mainAfterLoad
  rw [if_pos h]

theorem C3_witness :
    mainAfterLoad roundRobin 0 ([] : List (List ℚ)) [("t", ["a"])] [2]
      = { exitCode := 1, engineInvoked := false, output := none } :=
  C3_row_count_mismatch_precheck roundRobin 0 [] [("t", ["a"])] [2]
    (by decide)

/-- C4: running the Strategy B clustering twice on the same matrix and
level list yields identical label assignments. The construction
`BisectingKMeans(n_clusters=n, random_state=42)` pins the seed, so the
result does not depend on the ambient process entropy `e₁`/`e₂` that a
`random_state=None` run would consume: both runs hand the library the
same fixed seed 42, and the rest of `cluster` is pure. -/
theorem C4_strategy_b_deterministic
    (alg : BisectingAlg) (v : List (List ℚ)) (levels : List ℕ)
    (e₁ e₂ : ℕ) :
    cluster alg e₁ v levels = cluster alg e₂ v levels := rfl

/-- C5 counterexample: the claim quantifies over every metadata table and
every label set, but when the metadata already contains a column named
like a requested cluster column (here `cluster_03` with level 3), pandas
`df[col] = ...` overwrites that original column in place instead of
appending, so the original columns are not preserved: the first column of
the augmented table is no longer `("cluster_03", ["x"])`. -/
theorem C5_counterexample :
    (augment [("cluster_03", ["x"])] [(3, [1])]).head?
      ≠ some ("cluster_03", ["x"]) := by decide

/-- C5 (amended): provided no original column is named `cluster_NN` for a
merged level, the augmented table is the original table byte-identical as
a prefix, followed only by newly appended cluster columns (each appended
name is the `cluster_NN` name of one of the merged levels). -/
theorem C5_frame_append
    (df : Table) (labels : List (ℕ × List ℕ))
    (h : ∀ p ∈ labels, colName p.1 ∉ dictKeys df) :
    ∃ s, augment df labels = df ++ s
      ∧ ∀ q ∈ s, ∃ p ∈ labels, q.1 = colName p.1 :=
  augment_append df labels h

theorem C5_witness :
    ∃ s, augment [("title", ["a"])] [(2, [1])] = [("title", ["a"])] ++ s
      ∧ ∀ q ∈ s, ∃ p ∈ ([(2, [1])] : List (ℕ × List ℕ)),
          q.1 = colName p.1 :=
  C5_frame_append [("title", ["a"])] [(2, [1])] (by decide)

/-- C6 counterexample: the requested level list is sorted but NOT
deduplicated — `cluster` iterates `sorted(levels)` verbatim
(`processedLevels`), so the duplicated request `[3, 3]` makes the engine
cluster level 3 twice (two `BisectingKMeans` fits), not exactly once as
the claim states. -/
theorem C6_counterexample :
    processedLevels [3, 3] = [3, 3]
      ∧ ¬ (processedLevels [3, 3]).Nodup
      ∧ processedLevels [3, 3] ≠ [3] := by decide

/-- C6 (amended): the levels are processed in ascending order, but the
processed sequence is a permutation of the request (duplicates included,
one clustering run per occurrence); the returned mapping nevertheless
contains each distinct requested level exactly once. -/
theorem C6_sorted_not_dedup
    (alg : BisectingAlg) (e : ℕ) (v : List (List ℚ)) (levels : List ℕ)
    (h : ∀ m ∈ levels, 0 < m ∧ m ≤ v.length) :
    (processedLevels levels).Sorted (· ≤ ·)
      ∧ (processedLevels levels).Perm levels
      ∧ ∃ d, cluster alg e v levels = .ok d
          ∧ (dictKeys d).Nodup
          ∧ (∀ m, m ∈ dictKeys d ↔ m ∈ levels) := by
  refine ⟨List.sorted_insertionSort _ _, List.perm_insertionSort _ _,
    _, cluster_ok alg e v levels h, ?_, ?_⟩
  · exact nodup_dictKeys_foldl _ _ [] (by simp [dictKeys])
  · intro m
    rw [mem_dictKeys_foldl]
    simp [dictKeys, mem_processedLevels]

theorem C6_witness :
    (processedLevels [3, 3]).Sorted (· ≤ ·)
      ∧ (processedLevels [3, 3]).Perm [3, 3]
      ∧ ∃ d, cluster roundRobin 0 [[(0 : ℚ)], [1], [2]] [3, 3] = .ok d
          ∧ (dictKeys d).Nodup
          ∧ (∀ m, m ∈ dictKeys d ↔ m ∈ [3, 3]) :=
  C6_sorted_not_dedup roundRobin 0 [[(0 : ℚ)], [1], [2]] [3, 3]
    (by decide)

/-- C7 counterexample: with an original column already named
`cluster_03` and level 3 requested, the merge loop overwrites that column
in place, so the output header is NOT the original header followed by one
new `cluster_03` column. -/
theorem C7_counterexample :
    dictKeys (augment [("cluster_03", ["x"])] [(3, [1])])
      ≠ dictKeys [("cluster_03", ["x"])] ++ [colName 3] := by decide

/-- C7 (amended): provided no original column is named `cluster_NN` for a
requested level, a successful run outputs a table whose header is the
original columns followed by one new column per distinct level, named
`cluster_NN` (level zero-padded to two digits) in ascending level order,
and each new column holds the string-encoded 1-based cluster ids of its
level. -/
theorem C7_output_header_and_columns
    (alg : BisectingAlg) (e : ℕ) (v : List (List ℚ)) (df : Table)
    (levels : List ℕ)
    (hrow : rowCount df = v.length)
    (hlv : ∀ n ∈ levels, 0 < n ∧ n ≤ v.length)
    (hfresh : ∀ n ∈ levels, colName n ∉ dictKeys df) :
    ∃ (out : Table) (ks : List ℕ),
      (mainAfterLoad alg e v df levels).output = some out
      ∧ dictKeys out = dictKeys df ++ ks.map colName
      ∧ ks.Sorted (· < ·)
      ∧ (∀ m, m ∈ ks ↔ m ∈ levels)
      ∧ ∀ n ∈ levels,
          dictLookup out (colName n)
            = some (((alg.run v n 42).map (· + 1)).map natStr) := by
  set D := (processedLevels levels).foldl
    (fun d n => dictSet d n (labelsFor alg v 42 n)) [] with hD
  have hDnodup : (dictKeys D).Nodup :=
    nodup_dictKeys_foldl _ _ [] (by simp [dictKeys])
  have hDmem : ∀ m, m ∈ dictKeys D ↔ m ∈ levels := by
    intro m
    rw [hD, mem_dictKeys_foldl]
    simp [dictKeys, mem_processedLevels]
  have hout : (mainAfterLoad alg e v df levels).output
      = some (augment df D) := by
    unfold mainAfterLoad
    rw [if_neg (by omega), cluster_ok alg e v levels hlv]
  have hDfresh : ∀ p ∈ D, colName p.1 ∉ dictKeys df := by
    intro p hp
    exact hfresh p.1 ((hDmem p.1).mp (List.mem_map_of_mem _ hp))
  set sortedD := D.insertionSort (fun a b => a.1 ≤ b.1) with hsD
  have hperm : sortedD.Perm D :=
    List.perm_insertionSort (fun a b : ℕ × List ℕ => a.1 ≤ b.1) D
  have hkeysperm : (dictKeys sortedD).Perm (dictKeys D) := by
    unfold dictKeys
    exact hperm.map (·.1)
  have hksnodup : (dictKeys sortedD).Nodup :=
    (List.Perm.nodup_iff hkeysperm).mpr hDnodup
  have hcanon : augment df D
      = df ++ sortedD.map (fun p => (colName p.1, p.2.map natStr)) :=
    augment_canonical df D hDnodup hDfresh
  refine ⟨augment df D, dictKeys sortedD, hout, ?_, ?_, ?_, ?_⟩
  · rw [hcanon]
    unfold dictKeys
    rw [List.map_append, List.map_map, List.map_map]
    rfl
  · have hle : sortedD.Pairwise (fun a b => a.1 ≤ b.1) :=
      List.sorted_insertionSort _ D
    have h1 : (dictKeys sortedD).Pairwise (· ≤ ·) := by
      unfold dictKeys
      exact List.pairwise_map.mpr hle
    have h2 : (dictKeys sortedD).Pairwise (· ≠ ·) := hksnodup
    exact (h1.and h2).imp (fun hab => lt_of_le_of_ne hab.1 hab.2)
  · intro m
    rw [List.Perm.mem_iff hkeysperm]
    exact hDmem m
  · intro n hnlv
    rw [hcanon]
    have hlook : dictLookup D n = some (labelsFor alg v 42 n) := by
      rw [hD, dictLookup_foldl_dictSet,
        if_pos ((mem_processedLevels levels n).mpr hnlv)]
    obtain ⟨p, hpD, hpfst⟩ :
        ∃ p ∈ D, p.1 = n := by
      have : n ∈ dictKeys D := (hDmem n).mpr hnlv
      obtain ⟨p, hp, hpn⟩ := List.mem_map.mp this
      exact ⟨p, hp, hpn⟩
    have hpval : p.2 = labelsFor alg v 42 n := by
      have := dictLookup_of_mem D p hDnodup hpD
      rw [hpfst, hlook] at this
      exact (Option.some.injEq _ _).mp this.symm
    have hpair : (colName n, (labelsFor alg v 42 n).map natStr)
        ∈ sortedD.map (fun p => (colName p.1, p.2.map natStr)) := by
      refine List.mem_map.mpr ⟨p, hperm.mem_iff.mpr hpD, ?_⟩
      rw [hpfst, hpval]
    have hnames : (dictKeys (sortedD.map
        (fun p => (colName p.1, p.2.map natStr)))).Nodup := by
      have heq : dictKeys (sortedD.map
          (fun p => (colName p.1, p.2.map natStr)))
          = (sortedD.map (·.1)).map colName := by
        unfold dictKeys
        rw [List.map_map, List.map_map]
        rfl
      rw [heq]
      refine List.Nodup.map (fun a b hab => colName_inj a b hab) ?_
      have : dictKeys sortedD = sortedD.map (·.1) := rfl
      rw [← this]
      exact hksnodup
    rw [dictLookup_append_right df _ (colName n) ?_]
    · have hfound := dictLookup_of_mem _
        (colName n, (labelsFor alg v 42 n).map natStr) hnames hpair
      rw [hfound]
      rfl
    · intro q hq
      rcases hb : (q.1 == colName n) with _ | _
      · rfl
      · exact absurd ((eq_of_beq hb) ▸ List.mem_map_of_mem _ hq)
          (hfresh n hnlv)

theorem C7_witness :
    ∃ (out : Table) (ks : List ℕ),
      (mainAfterLoad roundRobin 0 [[(0 : ℚ)], [1]]
        [("title", ["a", "b"])] [2]).output = some out
      ∧ dictKeys out = dictKeys [("title", ["a", "b"])] ++ ks.map colName
      ∧ ks.Sorted (· < ·)
      ∧ (∀ m, m ∈ ks ↔ m ∈ [2])
      ∧ ∀ n ∈ [2],
          dictLookup out (colName n)
            = some (((roundRobin.run [[(0 : ℚ)], [1]] n 42).map
                (· + 1)).map natStr) :=
  C7_output_header_and_columns roundRobin 0 [[(0 : ℚ)], [1]]
    [("title", ["a", "b"])] [2] (by decide) (by decide) (by decide)

/-- C8: on the column `[A,A,A,B,B,C,D,E]` with top-N = 2,
`compress_column` keeps the two most frequent values (`A`, `B`) by name
and replaces every other value by the literal string `Other`. -/
theorem C8_compress_example :
    compress_column ["A", "A", "A", "B", "B", "C", "D", "E"] 2
      = ["A", "A", "A", "B", "B", "Other", "Other", "Other"] := by decide

/-- C9: whenever a string series has at most `top_n` distinct values,
every value belongs to `value_counts().head(top_n).index`, so
`compress_column` is the identity: nothing is collapsed to `Other`. -/
theorem C9_compress_id_of_few_distinct
    (series : List String) (top_n : ℕ)
    (h : (firstOccs series).length ≤ top_n) :
    compress_column series top_n = series := by
  show series.map (fun x =>
    if x ∈ ((value_counts series).take top_n).map (·.1) then x
    else "Other") = series
  have hlen : (value_counts series).length ≤ top_n := by
    unfold value_counts
    rw [(List.perm_insertionSort _ _).length_eq, List.length_map]
    exact h
  rw [List.take_of_length_le hlen]
  refine (List.map_congr_left ?_).trans (List.map_id series)
  intro x hx
  have hxf : x ∈ firstOccs series := (mem_firstOccs series x).mpr hx
  have hsorted : (x, series.count x) ∈ value_counts series := by
    unfold value_counts
    exact (List.perm_insertionSort _ _).mem_iff.mpr
      (List.mem_map_of_mem _ hxf)
  have hmem : x ∈ (value_counts series).map (·.1) :=
    List.mem_map.mpr ⟨(x, series.count x), hsorted, rfl⟩
  rw [if_pos hmem]
  rfl

theorem C9_witness :
    (firstOccs ["a", "b", "a"]).length ≤ 2
      ∧ compress_column ["a", "b", "a"] 2 = ["a", "b", "a"] :=
  ⟨by decide, C9_compress_id_of_few_distinct ["a", "b", "a"] 2 (by decide)⟩

/-- C10 counterexample: the output-exists early exit sits AFTER the
input-exists check, so an invocation whose resolved output path exists
but whose input vectors file is missing exits with code 1, not 0 — the
claim's universal quantification over invocations fails. -/
theorem C10_counterexample :
    (umapMain (fun p => p == "out.tsv") (fun _ => []) (fun m _ _ _ => m)
        ⟨"in.tsv", 3, 15, 1 / 10, some "out.tsv"⟩).exitCode ≠ 0
      ∧ (fun p => p == "out.tsv")
          (resolvedOutput ⟨"in.tsv", 3, 15, 1 / 10, some "out.tsv"⟩)
          = true := by decide

/-- C10 (amended): provided the input vectors file exists, an invocation
whose resolved output path already exists prints a skip notice and exits
with code 0 without loading the input vectors, without running the
reduction, and without writing anything. -/
theorem C10_skip_when_output_exists
    (fs : String → Bool) (loadFn : String → List (List ℚ))
    (reduceFn : List (List ℚ) → ℕ → ℕ → ℚ → List (List ℚ))
    (a : UmapArgs)
    (hin : fs a.vectors = true)
    (hout : fs (resolvedOutput a) = true) :
    umapMain fs loadFn reduceFn a
      = { exitCode := 0, loadedVectors := false, ranReduction := false,
          wrote := none } := by
  unfold umapMain
  rw [if_neg (by rw [hin]; simp), if_pos hout]

theorem C10_witness :
    umapMain (fun _ => true) (fun _ => []) (fun m _ _ _ => m)
        ⟨"in.tsv", 3, 15, 1 / 10, some "out.tsv"⟩
      = { exitCode := 0, loadedVectors := false, ranReduction := false,
          wrote := none } :=
  C10_skip_when_output_exists (fun _ => true) (fun _ => [])
    (fun m _ _ _ => m) ⟨"in.tsv", 3, 15, 1 / 10, some "out.tsv"⟩
    (by decide) (by decide)

end CsvProj
